import Mathlib

/-!
Verification of the gh-shortlink mapping CLI (`tools/shortlink-cli.mjs`)

A shallow embedding of the short-link mapping tool: the JSON store
(`loadMappings` / `saveMappings`, which in the source delegate to the
platform's `JSON.parse` / `JSON.stringify(·, null, 2)`), random code
generation (`randCode` / `getRandomCode`), locale parsing
(`parseLocales`), and the `add` / `remove` command bodies from `main`.

Platform primitives are modelled explicitly:
  * `JSON.stringify(data, null, 2)` and `JSON.parse` are modelled over an
    explicit JSON value type `Json` (null, booleans, strings, arrays,
    objects-as-ordered-key/value-lists).  Numeric literals are outside the
    model (JavaScript numbers are IEEE floats); the mapping records this
    tool reads and writes contain none.
  * `Math.random()` draws are modelled by an ambient stream of naturals,
    reduced modulo the alphabet size exactly as
    `Math.floor(Math.random()*chars.length)` always lands in
    `[0, chars.length)`.
  * `new URL(u)` (WHATWG URL parsing) and `crypto.createHash('sha256')`
    are taken as parameters; no claim depends on their internals.
  * The file system is explicit: a file's content is an `Option String`
    (`none` = file absent), and a command's write, if any, is returned as
    data rather than performed.
-/

namespace Shortlink

/-! ## JSON values

`Json` models the JavaScript values that `JSON.parse` can return within
this tool's data (no numbers).  Objects are ordered key/value lists,
mirroring JavaScript object property insertion order. -/

inductive Json where
  | null : Json
  | bool (b : Bool) : Json
  | str (s : String) : Json
  | arr (xs : List Json) : Json
  | obj (members : List (String × Json)) : Json

/-! ### String escaping, as performed by `JSON.stringify` -/

/-- Lower-case hex digit for `n < 16`, as emitted by `JSON.stringify`
in `\u00XX` escapes. -/
def hexDigitChar (n : Nat) : Char :=
  if n < 10 then Char.ofNat (48 + n) else Char.ofNat (87 + n)

/-- How `JSON.stringify` renders one character inside a string literal:
quote and backslash get a backslash escape, control characters get their
short escape (`\b \t \n \f \r`) or a `\u00XX` escape, everything else is
emitted verbatim. -/
def escapeChar (c : Char) : List Char :=
  if c = '"' then ['\\', '"']
  else if c = '\\' then ['\\', '\\']
  else if c = '\x08' then ['\\', 'b']
  else if c = '\x09' then ['\\', 't']
  else if c = '\x0a' then ['\\', 'n']
  else if c = '\x0c' then ['\\', 'f']
  else if c = '\x0d' then ['\\', 'r']
  else if c.toNat < 32 then
    ['\\', 'u', '0', '0', hexDigitChar (c.toNat / 16), hexDigitChar (c.toNat % 16)]
  else [c]

/-- A JSON string literal: quote, escaped characters, quote. -/
def quoteStr (s : String) : List Char :=
  '"' :: (s.toList.map escapeChar).flatten ++ ['"']

/-- Indentation: `2*n` spaces, the indentation `JSON.stringify(·, null, 2)` puts at
nesting depth `n`. -/
def indentChars (n : Nat) : List Char :=
  List.replicate (2 * n) ' '

/-! ### Serialization: `JSON.stringify(v, null, 2)` at nesting depth `d` -/

mutual

/-- Serialization `JSON.stringify(v, null, 2)` where `v` sits at nesting depth `d`. -/
def serJson (d : Nat) : Json → List Char
  | .null => "null".toList
  | .bool b => (if b then "true" else "false").toList
  | .str s => quoteStr s
  | .arr [] => ['[', ']']
  | .arr (x :: xs) =>
      '[' :: '\n' :: (indentChars (d + 1) ++ serJson (d + 1) x ++ serArrTail (d + 1) xs
        ++ '\n' :: indentChars d ++ [']'])
  | .obj [] => ['\x7b', '\x7d']
  | .obj ((k, v) :: ms) =>
      '\x7b' :: '\n' :: (indentChars (d + 1) ++ quoteStr k ++ ':' :: ' ' :: serJson (d + 1) v
        ++ serObjTail (d + 1) ms ++ '\n' :: indentChars d ++ ['\x7d'])

/-- The remaining array elements: `",\n" ++ indent ++ element` each. -/
def serArrTail (d : Nat) : List Json → List Char
  | [] => []
  | x :: xs => ',' :: '\n' :: (indentChars d ++ serJson d x ++ serArrTail d xs)

/-- The remaining object members: `",\n" ++ indent ++ "key": value` each. -/
def serObjTail (d : Nat) : List (String × Json) → List Char
  | [] => []
  | (k, v) :: ms =>
      ',' :: '\n' :: (indentChars d ++ quoteStr k ++ ':' :: ' ' :: serJson d v ++ serObjTail d ms)

end

/-! ### Parsing: a model of `JSON.parse`

`JSON.parse` whitespace is exactly space, tab, line feed and carriage
return.  The parser below accepts the grammar `JSON.parse` accepts on the
modelled fragment (no numeric literals): keyword literals, string
literals with the standard escapes, arrays and objects, with arbitrary
interspersed whitespace, and rejects unescaped control characters inside
strings, unknown escapes, and trailing garbage. -/

/-- The JSON whitespace characters (RFC 8259 / `JSON.parse`). -/
def jsonWs (c : Char) : Bool :=
  c = ' ' || c = '\t' || c = '\n' || c = '\r'

/-- Drop leading JSON whitespace. -/
def skipWs : List Char → List Char
  | [] => []
  | c :: cs => if jsonWs c then skipWs cs else c :: cs

/-- Value of a hex digit, upper or lower case. -/
def hexVal (c : Char) : Option Nat :=
  if '0' ≤ c ∧ c ≤ '9' then some (c.toNat - 48)
  else if 'a' ≤ c ∧ c ≤ 'f' then some (c.toNat - 87)
  else if 'A' ≤ c ∧ c ≤ 'F' then some (c.toNat - 55)
  else none

/-- The character denoted by a one-character escape (`\" \\ \/ \b \f \n \r \t`). -/
def escCharVal (c : Char) : Option Char :=
  if c = '"' then some '"'
  else if c = '\\' then some '\\'
  else if c = '/' then some '/'
  else if c = 'b' then some '\x08'
  else if c = 'f' then some '\x0c'
  else if c = 'n' then some '\x0a'
  else if c = 'r' then some '\x0d'
  else if c = 't' then some '\x09'
  else none

/-- Parse the body of a string literal (after the opening quote) up to and
including the closing quote; returns the decoded characters and the rest
of the input.  Unescaped control characters and unknown escapes are
rejected, as `JSON.parse` rejects them.  (`\uXXXX` escapes that denote
UTF-16 surrogates are outside the model: Lean characters are Unicode
scalars.) -/
def parseStrChars : List Char → Option (List Char × List Char)
  | [] => none
  | c :: cs =>
    if c = '"' then some ([], cs)
    else if c = '\\' then
      match cs with
      | [] => none
      | e :: cs2 =>
        if e = 'u' then
          match cs2 with
          | h1 :: h2 :: h3 :: h4 :: cs3 =>
            match hexVal h1, hexVal h2, hexVal h3, hexVal h4 with
            | some v1, some v2, some v3, some v4 =>
              match parseStrChars cs3 with
              | some (tail, rest) =>
                  some (Char.ofNat (((v1 * 16 + v2) * 16 + v3) * 16 + v4) :: tail, rest)
              | none => none
            | _, _, _, _ => none
          | _ => none
        else
          match escCharVal e with
          | some d =>
            match parseStrChars cs2 with
            | some (tail, rest) => some (d :: tail, rest)
            | none => none
          | none => none
    else if c.toNat < 32 then none
    else
      match parseStrChars cs with
      | some (tail, rest) => some (c :: tail, rest)
      | none => none

mutual

/-- Parse one JSON value, leading whitespace allowed.  `fuel` only bounds
the nesting recursion; `parseJson` supplies more fuel than any input can
consume. -/
def parseVal : Nat → List Char → Option (Json × List Char)
  | 0, _ => none
  | Nat.succ fuel, s =>
    match skipWs s with
    | 'n' :: 'u' :: 'l' :: 'l' :: r => some (.null, r)
    | 't' :: 'r' :: 'u' :: 'e' :: r => some (.bool true, r)
    | 'f' :: 'a' :: 'l' :: 's' :: 'e' :: r => some (.bool false, r)
    | '"' :: r =>
      match parseStrChars r with
      | some (cs, r2) => some (.str (String.mk cs), r2)
      | none => none
    | '[' :: r =>
      if (skipWs r).head? = some ']' then some (.arr [], (skipWs r).tail)
      else
        match parseItems fuel r with
        | some (xs, r2) => some (.arr xs, r2)
        | none => none
    | '\x7b' :: r =>
      if (skipWs r).head? = some '\x7d' then some (.obj [], (skipWs r).tail)
      else
        match parseMembers fuel r with
        | some (ms, r2) => some (.obj ms, r2)
        | none => none
    | _ => none

/-- Parse a non-empty comma-separated list of values followed by `]`. -/
def parseItems : Nat → List Char → Option (List Json × List Char)
  | 0, _ => none
  | Nat.succ fuel, s =>
    match parseVal fuel s with
    | none => none
    | some (v, r) =>
      match skipWs r with
      | ',' :: r2 =>
        match parseItems fuel r2 with
        | some (vs, r3) => some (v :: vs, r3)
        | none => none
      | ']' :: r2 => some ([v], r2)
      | _ => none

/-- Parse a non-empty comma-separated list of `"key": value` members
followed by the closing brace. -/
def parseMembers : Nat → List Char → Option (List (String × Json) × List Char)
  | 0, _ => none
  | Nat.succ fuel, s =>
    match skipWs s with
    | '"' :: r =>
      match parseStrChars r with
      | none => none
      | some (kcs, r2) =>
        match skipWs r2 with
        | ':' :: r3 =>
          match parseVal fuel r3 with
          | none => none
          | some (v, r4) =>
            match skipWs r4 with
            | ',' :: r5 =>
              match parseMembers fuel r5 with
              | some (ms, r6) => some ((String.mk kcs, v) :: ms, r6)
              | none => none
            | '\x7d' :: r5 => some ([(String.mk kcs, v)], r5)
            | _ => none
        | _ => none
    | _ => none

end

/-- Model of `JSON.parse(raw)`: one value, optionally surrounded by whitespace,
nothing after it.  The fuel `raw.length + 1` exceeds the nesting depth of
any value a string of that length can denote. -/
def parseJson (raw : String) : Option Json :=
  match parseVal (raw.toList.length + 1) raw.toList with
  | some (v, rest) => if skipWs rest = [] then some v else none
  | none => none

/-! ## Errors

The source throws plain `Error`s; the constructors below tag each throw
site, and `CliError.message` reproduces the thrown message text.  The
spec's error kinds map as: InvalidInput = `missingUrl` / `invalidUrl` /
`invalidCode` / `missingRemoveCode`, DuplicateCode = `duplicateCode`,
GenerationExhausted = `generationExhausted`, ParseError = `parseError`. -/

/-- The message `JSON.parse` puts in its `SyntaxError`; the exact text is
engine-specific, the model uses a fixed stand-in. -/
def jsonSyntaxErrorMessage : String := "Unexpected token"

inductive CliError where
  | missingUrl : CliError
  | invalidUrl : CliError
  | invalidCode : CliError
  | duplicateCode (code : String) : CliError
  | generationExhausted : CliError
  | missingRemoveCode : CliError
  | parseError (file : String) (cause : String) : CliError
deriving DecidableEq, Repr

/-- The message each throw site produces (source lines 48, 50, 61, 99,
114, 115, 118, 150). -/
def CliError.message : CliError → String
  | .missingUrl => "add 命令必须提供 --url"
  | .invalidUrl => "URL 非法，请包含协议，如 https://example.com"
  | .invalidCode => "短码仅允许数字、字母、下划线、连字符"
  | .duplicateCode code => "短码 " ++ code ++ " 已存在，如需覆盖请使用 --replace"
  | .generationExhausted => "无法生成唯一短码，请手动指定 --code"
  | .missingRemoveCode => "remove 命令必须提供 --code"
  | .parseError file cause => "无法解析 " ++ file ++ ": " ++ cause

/-! ## The mapping store (`loadMappings` / `saveMappings`) -/

/-- The whitespace `String.prototype.trim` strips (the ASCII and the
common Unicode members; the full ECMAScript set also contains the other
`Zs` space separators, which never occur in this tool's data). -/
def jsWhitespace (c : Char) : Bool :=
  c = ' ' || c = '\t' || c = '\n' || c = '\r' || c = '\x0b' || c = '\x0c' ||
  c = '\xa0' || c = '\u2028' || c = '\u2029' || c = '\uFEFF'

/-- Model of `raw.trim()`. -/
def jsTrim (s : String) : String :=
  String.mk (((s.toList.dropWhile jsWhitespace).reverse.dropWhile jsWhitespace).reverse)

/-- Model of `loadMappings(file)` (source lines 41–52).  The file system is
explicit: `content` is the file's content, `none` when
`existsSync(file)` is false.  A missing or blank file yields `[]`; a
JSON array yields its elements; malformed JSON or any other top-level
shape is rethrown as `无法解析 <file>: <cause>`. -/
def loadMappings (file : String) (content : Option String) :
    Except CliError (List Json) :=
  match content with
  | none => .ok []
  | some raw =>
    if jsTrim raw = "" then .ok []
    else
      match parseJson raw with
      | some (.arr xs) => .ok xs
      | some _ => .error (.parseError file "mappings.json 必须是数组")
      | none => .error (.parseError file jsonSyntaxErrorMessage)

/-- The bytes `saveMappings(file, data)` writes (source lines 54–57):
`JSON.stringify(data, null, 2) + "\n"`. -/
def saveContent (data : List Json) : String :=
  String.mk (serJson 0 (.arr data) ++ ['\n'])

/-! ## Code generation (`randCode` / `getRandomCode`) -/

def base62 : String := "0123456789abcdefghijklmnopqrstuvwxyzABCDEFGHIJKLMNOPQRSTUVWXYZ"

def base62Safe : String := "23456789abcdefghijkmnpqrstuvwxyzABCDEFGHJKLMNPQRSTUVWXYZ"

/-- Configuration `CONFIG` of source line 14: CODE_MIN_LEN 5, CODE_MAX_LEN 10, AVOID_AMBIGUOUS true. -/
structure Config where
  CODE_MIN_LEN : Nat
  CODE_MAX_LEN : Nat
  AVOID_AMBIGUOUS : Bool

def CONFIG : Config := ⟨5, 10, true⟩

/-- Model of `randCode(len, safe)` (source lines 16–21).  `r i` models the `i`-th
`Math.random()` draw of the call: `Math.floor(Math.random()*chars.length)`
is exactly an arbitrary natural below `chars.length`, which `% chars.length`
enforces. -/
def randCode (len : Nat) (safe : Bool) (r : Nat → Nat) : String :=
  let chars := if safe then base62Safe else base62
  String.mk ((List.range len).map fun i => chars.toList.getD (r i % chars.length) ' ')

/-- The `for(let i=0;i<10000;i++)` loop of `getRandomCode`, with
`remaining` iterations left and `i` the current index: return the
candidate of the first iteration whose candidate is not in `used`, throw
when the iterations run out. -/
def genTry (used : List String) (cand : Nat → String) :
    Nat → Nat → Except CliError String
  | 0, _ => .error .generationExhausted
  | remaining + 1, i =>
    let code := cand i
    if used.contains code then genTry used cand remaining (i + 1)
    else .ok code

/-- Model of `getRandomCode(existing)` (source lines 91–100), over the codes of the
existing records.  `rnd i` is the random stream the `i`-th loop iteration
consumes.  The loop returns the first of at most 10000 candidates not in
`used`, else throws. -/
def getRandomCode (rnd : Nat → Nat → Nat) (existingCodes : List String) :
    Except CliError String :=
  let length := max CONFIG.CODE_MIN_LEN 4
  let used := existingCodes
  genTry used (fun i => randCode length CONFIG.AVOID_AMBIGUOUS (rnd i)) 10000 0

/-! ## Small JavaScript string helpers -/

/-- Model of `s.split(sep)` for a one-character separator: always returns at least
one (possibly empty) segment. -/
def splitChar (sep : Char) : List Char → List (List Char)
  | [] => [[]]
  | c :: cs =>
    match splitChar sep cs with
    | [] => if c = sep then [[], []] else [[c]]
    | h :: t => if c = sep then [] :: h :: t else (c :: h) :: t

/-- Model of `parts.join(sep)` for a one-character separator. -/
def joinChar (sep : Char) (parts : List (List Char)) : List Char :=
  (parts.intersperse [sep]).flatten

/-- JavaScript object assignment `map[k] = v` on an ordered key/value
list: an existing key keeps its position and gets the new value, a new
key is appended. -/
def assocSet (m : List (String × String)) (k v : String) : List (String × String) :=
  if m.any (fun p => p.1 = k) then m.map (fun p => if p.1 = k then (k, v) else p)
  else m ++ [(k, v)]

/-! ## `hashPassword` and `parseLocales` -/

/-- Model of `hashPassword(pwd)` (source lines 65–68); `sha` stands for
`crypto.createHash('sha256').update(·).digest('hex')`.  The absent /
empty (falsy) password yields `null`. -/
def hashPassword (sha : String → String) (pwd : String) : Option String :=
  if pwd = "" then none else some (sha pwd)

/-- Model of `parseLocales(input)` (source lines 70–80).  `input = ""` models the
absent (falsy) option.  Each comma-separated pair is split on `'='`; a
pair whose part before the first `'='` is empty, or which contains no
`'='` at all, is skipped; otherwise the trimmed tail (re-joined on `'='`)
is assigned to the trimmed language key. -/
def parseLocales (input : String) : List (String × String) :=
  if input = "" then []
  else
    (splitChar ',' input.toList).foldl
      (fun map pair =>
        match splitChar '=' pair with
        | [] => map
        | lang :: urlParts =>
          if lang = [] ∨ urlParts = [] then map
          else assocSet map (jsTrim (String.mk lang))
                 (jsTrim (String.mk (joinChar '=' urlParts))))
      []

/-! ## Mapping records and the `add` / `remove` command bodies -/

structure Device where
  mobile : Option String
  desktop : Option String
deriving DecidableEq, Repr

structure Targets where
  device : Device
  locale : List (String × String)
deriving DecidableEq, Repr

/-- One mapping record (spec §3; source lines 124–137).  `Option` fields
model JSON `null`. -/
structure Mapping where
  code : String
  url : String
  createdAt : String
  expiresAt : Option String
  passwordHash : Option String
  targets : Targets
deriving DecidableEq, Repr

/-- Model of `ensureUnique(code, data)` (source lines 59–63). -/
def ensureUnique (code : String) (data : List Mapping) : Except CliError Unit :=
  if data.any (fun item => item.code = code) then .error (.duplicateCode code)
  else .ok ()

/-- The options of one `add` invocation, as `parseArgs` leaves them in
`opts`.  `""` models an absent (or empty, equally falsy) string option;
`replace` models the truthiness of `opts.replace`. -/
structure AddOpts where
  url : String := ""
  code : String := ""
  expires : String := ""
  password : String := ""
  mobile : String := ""
  desktop : String := ""
  locale : String := ""
  replace : Bool := false

/-- Model of the regex test on line 118: every character is in [0-9A-Za-z_-] and the string is non-empty. -/
def codeCharOk (c : Char) : Bool :=
  ('0' ≤ c && c ≤ '9') || ('A' ≤ c && c ≤ 'Z') || ('a' ≤ c && c ≤ 'z') ||
  c = '_' || c = '-'

def codeMatches (s : String) : Bool :=
  s ≠ "" && s.toList.all codeCharOk

/-- The `mapping` object literal (source lines 124–137).  `now` models
`new Date().toISOString()`. -/
def buildMapping (sha : String → String) (now : String) (code : String)
    (o : AddOpts) : Mapping where
  code := code
  url := o.url
  createdAt := now
  expiresAt := if o.expires ≠ "" then some o.expires else none
  passwordHash := hashPassword sha o.password
  targets :=
    { device :=
        { mobile := if o.mobile ≠ "" then some o.mobile else none
          desktop := if o.desktop ≠ "" then some o.desktop else none }
      locale := parseLocales o.locale }

/-- Lines 116–122: resolve the code of the new record, or throw. -/
def resolveCode (rnd : Nat → Nat → Nat) (o : AddOpts) (data : List Mapping) :
    Except CliError String :=
  if o.code ≠ "" then
    if !codeMatches o.code then .error .invalidCode
    else if !o.replace then
      match ensureUnique o.code data with
      | .error e => .error e
      | .ok _ => .ok o.code
    else .ok o.code
  else getRandomCode rnd (data.map (fun item => item.code))

/-- Lines 138–143: place the new record — overwrite in place under
`--replace` when the code is already present, append otherwise. -/
def placeMapping (replace : Bool) (code : String) (mapping : Mapping)
    (data : List Mapping) : List Mapping :=
  if replace then
    match data.findIdx? (fun item => item.code = code) with
    | some idx => data.set idx mapping
    | none => data ++ [mapping]
  else data ++ [mapping]

/-- The `add` branch of `main` (source lines 112–147).  On success the
returned list is exactly what `saveMappings` then writes; on error
nothing is written (`main` rethrows before reaching `saveMappings`). -/
def addCmd (isValidUrl : String → Bool) (sha : String → String) (now : String)
    (rnd : Nat → Nat → Nat) (o : AddOpts) (data : List Mapping) :
    Except CliError (List Mapping) :=
  if o.url = "" then .error .missingUrl
  else if !isValidUrl o.url then .error .invalidUrl
  else
    match resolveCode rnd o data with
    | .error e => .error e
    | .ok code => .ok (placeMapping o.replace code (buildMapping sha now code o) data)

/-- What the `remove` branch leaves behind: the written list, if any, and
the console messages. -/
structure RemoveOutcome where
  saved : Option (List Mapping)
  stderrLines : List String
  stdoutLines : List String
deriving DecidableEq, Repr

/-- The `remove` branch of `main` (source lines 148–159).  When no record
carries the code, nothing is written and the miss is only reported on
stderr; `main` does not throw, so the process exit code stays 0. -/
def removeCmd (code : String) (data : List Mapping) :
    Except CliError RemoveOutcome :=
  if code = "" then .error .missingRemoveCode
  else
    let filtered := data.filter (fun item => !(item.code = code))
    if filtered.length = data.length then
      .ok { saved := none, stderrLines := ["未找到短码 " ++ code], stdoutLines := [] }
    else
      .ok { saved := some filtered, stderrLines := [], stdoutLines := ["已删除 " ++ code] }

/-- Model of the catch handler (source lines 175–178): a thrown error sets exit
code 1, otherwise the process exits 0. -/
def exitCodeOf {α : Type} : Except CliError α → Nat
  | .ok _ => 0
  | .error _ => 1

/-! ## Round-trip infrastructure: the serializer's output parses back

`jsize` is the fuel a value's parse consumes: every `parseVal` /
`parseItems` / `parseMembers` recursion step strictly decreases it. -/

mutual

def jsize : Json → Nat
  | .null => 1
  | .bool _ => 1
  | .str _ => 1
  | .arr xs => 1 + jsizeItems xs
  | .obj ms => 1 + jsizeMembers ms

def jsizeItems : List Json → Nat
  | [] => 1
  | x :: xs => 1 + jsize x + jsizeItems xs

def jsizeMembers : List (String × Json) → Nat
  | [] => 1
  | (_, v) :: ms => 1 + jsize v + jsizeMembers ms

end

/-- The statement of the round trip for one value: parsing the
serialization (after any whitespace prefix) yields the value and leaves
exactly the trailing input. -/
def PserOK (v : Json) : Prop :=
  ∀ (fuel d : Nat) (rest pre : List Char),
    (∀ c ∈ pre, jsonWs c = true) → jsize v ≤ fuel →
    parseVal fuel (pre ++ (serJson d v ++ rest)) = some (v, rest)

/-- Modelled from the spec: split a pair at its first `=`, giving the
part before and the part after; `none` when there is no `=` — "each pair
is split on the first `=`" with later `=` characters left in the URL. -/
def splitFirst (sep : Char) : List Char → Option (List Char × List Char)
  | [] => none
  | c :: cs =>
    if c = sep then some ([], cs)
    else (splitFirst sep cs).map fun p => (c :: p.1, p.2)

/-- Modelled from the spec: the contribution of one comma-separated pair
— skipped when it has no `=` or an empty language part, otherwise the
trimmed language tag mapped to the trimmed URL. -/
def localePairSpec (p : List Char) : Option (String × String) :=
  match splitFirst '=' p with
  | none => none
  | some (lang, url) =>
    if lang = [] then none
    else some (jsTrim (String.mk lang), jsTrim (String.mk url))

/-- Modelled from the spec: split the option on commas, keep the valid
pairs, and build the map (later pairs overwrite earlier ones with the
same tag, as JavaScript object assignment does). -/
def parseLocalesSpec (input : String) : List (String × String) :=
  ((splitChar ',' input.toList).filterMap localePairSpec).foldl
    (fun m kv => assocSet m kv.1 kv.2) []

/-- Induction over `Json` with hypotheses for the members of arrays and
objects. -/
theorem Json.myrec {P : Json → Prop}
    (hnull : P .null) (hbool : ∀ b, P (.bool b)) (hstr : ∀ s, P (.str s))
    (harr : ∀ xs, (∀ x ∈ xs, P x) → P (.arr xs))
    (hobj : ∀ ms, (∀ kv ∈ ms, P kv.2) → P (.obj ms)) : ∀ v, P v := by
  have H : ∀ n (v : Json), sizeOf v ≤ n → P v := by
    intro n
    induction n with
    | zero => intro v hv; cases v <;> simp at hv
    | succ n ih =>
      intro v hv
      cases v with
      | null => exact hnull
      | bool b => exact hbool b
      | str s => exact hstr s
      | arr xs =>
        refine harr xs fun x hx => ih x ?_
        have := List.sizeOf_lt_of_mem hx
        simp at hv
        omega
      | obj ms =>
        refine hobj ms fun kv hkv => ih kv.2 ?_
        have h1 := List.sizeOf_lt_of_mem hkv
        obtain ⟨k, v⟩ := kv
        simp at hv h1 ⊢
        omega
  exact fun v => H (sizeOf v) v le_rfl

theorem skipWs_not (c : Char) (s : List Char) (h : jsonWs c = false) :
    skipWs (c :: s) = c :: s := by
  simp [skipWs, h]

theorem skipWs_ws_append (l : List Char) (s : List Char)
    (h : ∀ c ∈ l, jsonWs c = true) : skipWs (l ++ s) = skipWs s := by
  induction l with
  | nil => rfl
  | cons c t ih =>
    have hc : jsonWs c = true := h c (List.mem_cons_self c t)
    simp only [List.cons_append, skipWs, hc, if_pos]
    exact ih fun d hd => h d (List.mem_cons_of_mem c hd)

theorem indentChars_ws (n : Nat) : ∀ c ∈ indentChars n, jsonWs c = true := by
  intro c hc
  have := List.eq_of_mem_replicate (by simpa [indentChars] using hc)
  subst this
  rfl

theorem hexVal_hexDigitChar (n : Nat) (h : n < 16) :
    hexVal (hexDigitChar n) = some n := by
  interval_cases n <;> decide

/-! One-step unfoldings of `parseStrChars` at each escape shape. -/

theorem pstrQuote (cs : List Char) : parseStrChars ('"' :: cs) = some ([], cs) := by
  rw [parseStrChars.eq_def]; rfl

theorem pstrEscQ (cs : List Char) : parseStrChars ('\\' :: '"' :: cs) =
    match parseStrChars cs with
    | some (t, r) => some ('"' :: t, r)
    | none => none := by
  rw [parseStrChars.eq_def]; rfl

theorem pstrEscBS (cs : List Char) : parseStrChars ('\\' :: '\\' :: cs) =
    match parseStrChars cs with
    | some (t, r) => some ('\\' :: t, r)
    | none => none := by
  rw [parseStrChars.eq_def]; rfl

theorem pstrEscB (cs : List Char) : parseStrChars ('\\' :: 'b' :: cs) =
    match parseStrChars cs with
    | some (t, r) => some ('\x08' :: t, r)
    | none => none := by
  rw [parseStrChars.eq_def]; rfl

theorem pstrEscT (cs : List Char) : parseStrChars ('\\' :: 't' :: cs) =
    match parseStrChars cs with
    | some (t, r) => some ('\x09' :: t, r)
    | none => none := by
  rw [parseStrChars.eq_def]; rfl

theorem pstrEscN (cs : List Char) : parseStrChars ('\\' :: 'n' :: cs) =
    match parseStrChars cs with
    | some (t, r) => some ('\x0a' :: t, r)
    | none => none := by
  rw [parseStrChars.eq_def]; rfl

theorem pstrEscF (cs : List Char) : parseStrChars ('\\' :: 'f' :: cs) =
    match parseStrChars cs with
    | some (t, r) => some ('\x0c' :: t, r)
    | none => none := by
  rw [parseStrChars.eq_def]; rfl

theorem pstrEscR (cs : List Char) : parseStrChars ('\\' :: 'r' :: cs) =
    match parseStrChars cs with
    | some (t, r) => some ('\x0d' :: t, r)
    | none => none := by
  rw [parseStrChars.eq_def]; rfl

theorem pstrU (h1 h2 h3 h4 : Char) (cs : List Char) :
    parseStrChars ('\\' :: 'u' :: h1 :: h2 :: h3 :: h4 :: cs) =
    match hexVal h1, hexVal h2, hexVal h3, hexVal h4 with
    | some v1, some v2, some v3, some v4 =>
      (match parseStrChars cs with
       | some (t, r) => some (Char.ofNat (((v1 * 16 + v2) * 16 + v3) * 16 + v4) :: t, r)
       | none => none)
    | _, _, _, _ => none := by
  rw [parseStrChars.eq_def]; rfl

theorem pstrPlain (c : Char) (cs : List Char) (n1 : c ≠ '"') (n2 : c ≠ '\\')
    (n3 : ¬ c.toNat < 32) : parseStrChars (c :: cs) =
    match parseStrChars cs with
    | some (t, r) => some (c :: t, r)
    | none => none := by
  rw [parseStrChars.eq_def]
  simp only [if_neg n1, if_neg n2, if_neg n3]

theorem hexValZero : hexVal '0' = some 0 := by decide

theorem escapeCharQ : escapeChar '"' = ['\\', '"'] := by decide
theorem escapeCharBS : escapeChar '\\' = ['\\', '\\'] := by decide
theorem escapeCharB : escapeChar '\x08' = ['\\', 'b'] := by decide
theorem escapeCharT : escapeChar '\x09' = ['\\', 't'] := by decide
theorem escapeCharN : escapeChar '\x0a' = ['\\', 'n'] := by decide
theorem escapeCharF : escapeChar '\x0c' = ['\\', 'f'] := by decide
theorem escapeCharR : escapeChar '\x0d' = ['\\', 'r'] := by decide

/-- Parsing a string-literal body undoes `escapeChar`-escaping. -/
theorem parseStrChars_escaped (l : List Char) (rest : List Char) :
    parseStrChars ((l.map escapeChar).flatten ++ '"' :: rest) = some (l, rest) := by
  induction l generalizing rest with
  | nil => simpa using pstrQuote rest
  | cons c t ih =>
    simp only [List.map_cons, List.flatten_cons, List.append_assoc]
    by_cases h1 : c = '"'
    · subst h1
      simp only [escapeCharQ, List.cons_append, List.nil_append, pstrEscQ, ih]
    · by_cases h2 : c = '\\'
      · subst h2
        simp only [escapeCharBS, List.cons_append, List.nil_append, pstrEscBS, ih]
      · by_cases h3 : c = '\x08'
        · subst h3
          simp only [escapeCharB, List.cons_append, List.nil_append, pstrEscB, ih]
        · by_cases h4 : c = '\x09'
          · subst h4
            simp only [escapeCharT, List.cons_append, List.nil_append, pstrEscT, ih]
          · by_cases h5 : c = '\x0a'
            · subst h5
              simp only [escapeCharN, List.cons_append, List.nil_append, pstrEscN, ih]
            · by_cases h6 : c = '\x0c'
              · subst h6
                simp only [escapeCharF, List.cons_append, List.nil_append, pstrEscF, ih]
              · by_cases h7 : c = '\x0d'
                · subst h7
                  simp only [escapeCharR, List.cons_append, List.nil_append, pstrEscR, ih]
                · by_cases h8 : c.toNat < 32
                  · have hdiv : c.toNat / 16 < 16 := by omega
                    have hmod : c.toNat % 16 < 16 := Nat.mod_lt _ (by omega)
                    simp only [escapeChar, if_neg h1, if_neg h2, if_neg h3, if_neg h4,
                      if_neg h5, if_neg h6, if_neg h7, if_pos h8, List.cons_append,
                      List.nil_append, pstrU, hexValZero,
                      hexVal_hexDigitChar _ hdiv, hexVal_hexDigitChar _ hmod, ih]
                    have hval : ((0 * 16 + 0) * 16 + c.toNat / 16) * 16 + c.toNat % 16
                        = c.toNat := by omega
                    rw [hval, Char.ofNat_toNat]
                  · simp only [escapeChar, if_neg h1, if_neg h2, if_neg h3, if_neg h4,
                      if_neg h5, if_neg h6, if_neg h7, if_neg h8, List.cons_append,
                      List.nil_append, pstrPlain c _ h1 h2 h8, ih]

/-- Parsing a serialized string literal (after its opening quote). -/
theorem parseStrChars_quoteStr (s : String) (rest : List Char) :
    parseStrChars ((s.toList.map escapeChar).flatten ++ '"' :: rest)
      = some (s.toList, rest) :=
  parseStrChars_escaped s.toList rest

/-! One-step unfoldings of `parseVal` / `parseItems` / `parseMembers`. -/

theorem pvNull (f : Nat) (s rest : List Char)
    (hs : skipWs s = 'n' :: 'u' :: 'l' :: 'l' :: rest) :
    parseVal (f + 1) s = some (.null, rest) := by
  rw [parseVal.eq_2, hs]; rfl

theorem pvTrue (f : Nat) (s rest : List Char)
    (hs : skipWs s = 't' :: 'r' :: 'u' :: 'e' :: rest) :
    parseVal (f + 1) s = some (.bool true, rest) := by
  rw [parseVal.eq_2, hs]; rfl

theorem pvFalse (f : Nat) (s rest : List Char)
    (hs : skipWs s = 'f' :: 'a' :: 'l' :: 's' :: 'e' :: rest) :
    parseVal (f + 1) s = some (.bool false, rest) := by
  rw [parseVal.eq_2, hs]; rfl

theorem pvStr (f : Nat) (s r : List Char) (hs : skipWs s = '"' :: r) :
    parseVal (f + 1) s =
    match parseStrChars r with
    | some (cs, r2) => some (.str (String.mk cs), r2)
    | none => none := by
  rw [parseVal.eq_2, hs]; rfl

theorem pvArr (f : Nat) (s r : List Char) (hs : skipWs s = '[' :: r) :
    parseVal (f + 1) s =
    if (skipWs r).head? = some ']' then some (.arr [], (skipWs r).tail)
    else
      match parseItems f r with
      | some (xs, r2) => some (.arr xs, r2)
      | none => none := by
  rw [parseVal.eq_2, hs]; rfl

theorem pvObj (f : Nat) (s r : List Char) (hs : skipWs s = '\x7b' :: r) :
    parseVal (f + 1) s =
    if (skipWs r).head? = some '\x7d' then some (.obj [], (skipWs r).tail)
    else
      match parseMembers f r with
      | some (ms, r2) => some (.obj ms, r2)
      | none => none := by
  rw [parseVal.eq_2, hs]; rfl

theorem piStep (f : Nat) (s : List Char) :
    parseItems (f + 1) s =
    match parseVal f s with
    | none => none
    | some (v, r) =>
      match skipWs r with
      | ',' :: r2 =>
        match parseItems f r2 with
        | some (vs, r3) => some (v :: vs, r3)
        | none => none
      | ']' :: r2 => some ([v], r2)
      | _ => none := by
  rw [parseItems.eq_2]

theorem pmStep (f : Nat) (s : List Char) :
    parseMembers (f + 1) s =
    match skipWs s with
    | '"' :: r =>
      match parseStrChars r with
      | none => none
      | some (kcs, r2) =>
        match skipWs r2 with
        | ':' :: r3 =>
          match parseVal f r3 with
          | none => none
          | some (v, r4) =>
            match skipWs r4 with
            | ',' :: r5 =>
              match parseMembers f r5 with
              | some (ms, r6) => some ((String.mk kcs, v) :: ms, r6)
              | none => none
            | '\x7d' :: r5 => some ([(String.mk kcs, v)], r5)
            | _ => none
        | _ => none
    | _ => none := by
  rw [parseMembers.eq_2]

theorem jsize_pos (v : Json) : 1 ≤ jsize v := by
  cases v <;> simp [jsize]

theorem jsizeItems_pos (xs : List Json) : 1 ≤ jsizeItems xs := by
  cases xs with
  | nil => simp [jsizeItems]
  | cons x t => simp [jsizeItems]; omega

theorem jsizeMembers_pos (ms : List (String × Json)) : 1 ≤ jsizeMembers ms := by
  cases ms with
  | nil => simp [jsizeMembers]
  | cons m ms => obtain ⟨k, v⟩ := m; simp [jsizeMembers]; omega

/-- Every serialized value starts with a non-whitespace character that is
not a closing bracket; the parser's empty-array / empty-object lookahead
therefore never fires on a serialized element. -/
theorem serJson_head (d : Nat) (v : Json) :
    ∃ c t, serJson d v = c :: t ∧ jsonWs c = false ∧ c ≠ ']' ∧ c ≠ '\x7d' ∧
      jsWhitespace c = false := by
  cases v with
  | null =>
    exact ⟨'n', ['u', 'l', 'l'], by simp [serJson], by decide, by decide, by decide, by decide⟩
  | bool b =>
    cases b with
    | true =>
      exact ⟨'t', ['r', 'u', 'e'], by simp [serJson], by decide, by decide, by decide, by decide⟩
    | false =>
      exact ⟨'f', ['a', 'l', 's', 'e'], by simp [serJson], by decide, by decide, by decide, by decide⟩
  | str s =>
    exact ⟨'"', (s.toList.map escapeChar).flatten ++ ['"'],
      by simp [serJson, quoteStr, String.toList], by decide, by decide, by decide, by decide⟩
  | arr xs =>
    cases xs with
    | nil => exact ⟨'[', [']'], by simp [serJson], by decide, by decide, by decide, by decide⟩
    | cons x t =>
      exact ⟨'[', '\n' :: (indentChars (d + 1) ++ (serJson (d + 1) x ++
        (serArrTail (d + 1) t ++ '\n' :: (indentChars d ++ [']'])))),
        by simp [serJson], by decide, by decide, by decide, by decide⟩
  | obj ms =>
    cases ms with
    | nil => exact ⟨'\x7b', ['\x7d'], by simp [serJson], by decide, by decide, by decide, by decide⟩
    | cons m t =>
      obtain ⟨k, v⟩ := m
      exact ⟨'\x7b', '\n' :: (indentChars (d + 1) ++ (quoteStr k ++ ':' :: ' ' ::
        (serJson (d + 1) v ++ (serObjTail (d + 1) t ++ '\n' :: (indentChars d ++ ['\x7d']))))),
        by simp [serJson], by decide, by decide, by decide, by decide⟩

theorem skipWsComma (s : List Char) : skipWs (',' :: s) = ',' :: s :=
  skipWs_not ',' s (by decide)

theorem skipWsColon (s : List Char) : skipWs (':' :: s) = ':' :: s :=
  skipWs_not ':' s (by decide)

theorem skipWsQuote (s : List Char) : skipWs ('"' :: s) = '"' :: s :=
  skipWs_not '"' s (by decide)

theorem skipWsRBrack (s : List Char) : skipWs (']' :: s) = ']' :: s :=
  skipWs_not ']' s (by decide)

theorem skipWsRBrace (s : List Char) : skipWs ('\x7d' :: s) = '\x7d' :: s :=
  skipWs_not '\x7d' s (by decide)

/-- Lemma: `parseItems` consumes a serialized non-empty element list followed by
whitespace and the closing bracket. -/
theorem parseItems_ser (xs : List Json) :
    ∀ (x : Json), (∀ e ∈ x :: xs, PserOK e) →
    ∀ (fuel d : Nat) (pre trailing rest : List Char),
      (∀ c ∈ pre, jsonWs c = true) → (∀ c ∈ trailing, jsonWs c = true) →
      jsizeItems (x :: xs) ≤ fuel →
      parseItems fuel
        (pre ++ (serJson d x ++ (serArrTail d xs ++ (trailing ++ ']' :: rest))))
        = some (x :: xs, rest) := by
  induction xs with
  | nil =>
    intro x hP fuel d pre trailing rest hpre htr hsz
    have hx1 : 1 ≤ jsize x := jsize_pos x
    have hsze : jsizeItems [x] = 2 + jsize x := by simp [jsizeItems]; omega
    obtain ⟨f, rfl⟩ : ∃ f, fuel = f + 1 := ⟨fuel - 1, by omega⟩
    rw [piStep]
    have hv := hP x (List.mem_cons_self x []) f d (trailing ++ ']' :: rest) pre hpre
      (by omega)
    simp only [serArrTail, List.nil_append]
    simp only [hv]
    simp only [skipWs_ws_append trailing _ htr, skipWsRBrack]
  | cons y ys ih =>
    intro x hP fuel d pre trailing rest hpre htr hsz
    have hy1 : 1 ≤ jsize y := jsize_pos y
    have hys1 : 1 ≤ jsizeItems ys := jsizeItems_pos ys
    have hx1 : 1 ≤ jsize x := jsize_pos x
    have hsze : jsizeItems (x :: y :: ys) = 1 + jsize x + (1 + jsize y + jsizeItems ys) := by
      simp [jsizeItems]
    have hsze2 : jsizeItems (y :: ys) = 1 + jsize y + jsizeItems ys := by
      simp [jsizeItems]
    obtain ⟨f, rfl⟩ : ∃ f, fuel = f + 1 := ⟨fuel - 1, by omega⟩
    rw [piStep]
    have hv := hP x (List.mem_cons_self x _) f d
      (serArrTail d (y :: ys) ++ (trailing ++ ']' :: rest)) pre hpre (by omega)
    have htail : serArrTail d (y :: ys) ++ (trailing ++ ']' :: rest) =
        ',' :: (('\n' :: indentChars d) ++ (serJson d y ++ (serArrTail d ys ++
          (trailing ++ ']' :: rest)))) := by
      simp [serArrTail]
    have hi := ih y (fun e he => hP e (List.mem_cons_of_mem x he)) f d
      ('\n' :: indentChars d) trailing rest
      (by
        intro c hc
        rcases List.mem_cons.mp hc with h | h
        · subst h; rfl
        · exact indentChars_ws d c h)
      htr (by omega)
    simp only [hv]
    simp only [htail, skipWsComma]
    simp only [List.cons_append] at hi ⊢
    simp only [hi]

/-- Lemma: `parseMembers` consumes a serialized non-empty member list followed by
whitespace and the closing brace. -/
theorem parseMembers_ser (ms : List (String × Json)) :
    ∀ (k : String) (v : Json), (∀ kv ∈ (k, v) :: ms, PserOK kv.2) →
    ∀ (fuel d : Nat) (pre trailing rest : List Char),
      (∀ c ∈ pre, jsonWs c = true) → (∀ c ∈ trailing, jsonWs c = true) →
      jsizeMembers ((k, v) :: ms) ≤ fuel →
      parseMembers fuel
        (pre ++ (quoteStr k ++ (':' :: ' ' :: (serJson d v ++ (serObjTail d ms ++
          (trailing ++ '\x7d' :: rest))))))
        = some ((k, v) :: ms, rest) := by
  induction ms with
  | nil =>
    intro k v hP fuel d pre trailing rest hpre htr hsz
    have hv1 : 1 ≤ jsize v := jsize_pos v
    have hsze : jsizeMembers [(k, v)] = 2 + jsize v := by simp [jsizeMembers]; omega
    obtain ⟨f, rfl⟩ : ∃ f, fuel = f + 1 := ⟨fuel - 1, by omega⟩
    rw [pmStep]
    have hkey : pre ++ (quoteStr k ++ (':' :: ' ' :: (serJson d v ++ (serObjTail d [] ++
        (trailing ++ '\x7d' :: rest))))) =
        pre ++ ('"' :: ((k.toList.map escapeChar).flatten ++ '"' ::
          (':' :: ' ' :: (serJson d v ++ (trailing ++ '\x7d' :: rest))))) := by
      simp [quoteStr, serObjTail]
    have hval := hP (k, v) (List.mem_cons_self _ []) f d (trailing ++ '\x7d' :: rest)
      [' '] (by intro c hc; simp at hc; subst hc; rfl) (by show jsize v ≤ f; omega)
    simp only [List.cons_append, List.nil_append] at hval
    rw [hkey, skipWs_ws_append pre _ hpre, skipWsQuote]
    simp only [parseStrChars_escaped, skipWsColon]
    simp only [hval]
    simp only [skipWs_ws_append trailing _ htr, skipWsRBrace]
    rfl
  | cons m ms ih =>
    obtain ⟨k2, v2⟩ := m
    intro k v hP fuel d pre trailing rest hpre htr hsz
    have hv1 : 1 ≤ jsize v := jsize_pos v
    have hv2 : 1 ≤ jsize v2 := jsize_pos v2
    have hms1 : 1 ≤ jsizeMembers ms := jsizeMembers_pos ms
    have hsze : jsizeMembers ((k, v) :: (k2, v2) :: ms) =
        1 + jsize v + (1 + jsize v2 + jsizeMembers ms) := by simp [jsizeMembers]
    have hsze2 : jsizeMembers ((k2, v2) :: ms) = 1 + jsize v2 + jsizeMembers ms := by
      simp [jsizeMembers]
    obtain ⟨f, rfl⟩ : ∃ f, fuel = f + 1 := ⟨fuel - 1, by omega⟩
    rw [pmStep]
    have hkey : pre ++ (quoteStr k ++ (':' :: ' ' :: (serJson d v ++
        (serObjTail d ((k2, v2) :: ms) ++ (trailing ++ '\x7d' :: rest))))) =
        pre ++ ('"' :: ((k.toList.map escapeChar).flatten ++ '"' ::
          (':' :: ' ' :: (serJson d v ++ (serObjTail d ((k2, v2) :: ms) ++
            (trailing ++ '\x7d' :: rest)))))) := by
      simp [quoteStr]
    have hval := hP (k, v) (List.mem_cons_self _ _) f d
      (serObjTail d ((k2, v2) :: ms) ++ (trailing ++ '\x7d' :: rest))
      [' '] (by intro c hc; simp at hc; subst hc; rfl) (by show jsize v ≤ f; omega)
    simp only [List.cons_append, List.nil_append] at hval
    have htail : serObjTail d ((k2, v2) :: ms) ++ (trailing ++ '\x7d' :: rest) =
        ',' :: (('\n' :: indentChars d) ++ (quoteStr k2 ++ (':' :: ' ' ::
          (serJson d v2 ++ (serObjTail d ms ++ (trailing ++ '\x7d' :: rest)))))) := by
      simp [serObjTail]
    have hi := ih k2 v2 (fun kv hkv => hP kv (List.mem_cons_of_mem _ hkv)) f d
      ('\n' :: indentChars d) trailing rest
      (by
        intro c hc
        rcases List.mem_cons.mp hc with h | h
        · subst h; rfl
        · exact indentChars_ws d c h)
      htr (by omega)
    rw [hkey, skipWs_ws_append pre _ hpre, skipWsQuote]
    simp only [parseStrChars_escaped, skipWsColon]
    simp only [hval]
    simp only [htail, skipWsComma]
    simp only [List.cons_append] at hi ⊢
    simp only [hi]
    rfl

/-- The round trip for every JSON value: `parseVal` undoes `serJson`. -/
theorem parse_ser (v : Json) : PserOK v := by
  induction v using Json.myrec with
  | hnull =>
    intro fuel d rest pre hpre hsz
    have h1 : (1 : Nat) ≤ fuel := le_trans (by simp [jsize]) hsz
    obtain ⟨f, rfl⟩ : ∃ f, fuel = f + 1 := ⟨fuel - 1, by omega⟩
    apply pvNull
    rw [show serJson d Json.null ++ rest = 'n' :: 'u' :: 'l' :: 'l' :: rest by
      simp [serJson]]
    rw [skipWs_ws_append pre _ hpre, skipWs_not 'n' _ (by decide)]
  | hbool b =>
    intro fuel d rest pre hpre hsz
    have h1 : (1 : Nat) ≤ fuel := le_trans (by simp [jsize]) hsz
    obtain ⟨f, rfl⟩ : ∃ f, fuel = f + 1 := ⟨fuel - 1, by omega⟩
    cases b with
    | true =>
      apply pvTrue
      rw [show serJson d (Json.bool true) ++ rest = 't' :: 'r' :: 'u' :: 'e' :: rest by
        simp [serJson]]
      rw [skipWs_ws_append pre _ hpre, skipWs_not 't' _ (by decide)]
    | false =>
      apply pvFalse
      rw [show serJson d (Json.bool false) ++ rest
          = 'f' :: 'a' :: 'l' :: 's' :: 'e' :: rest by simp [serJson]]
      rw [skipWs_ws_append pre _ hpre, skipWs_not 'f' _ (by decide)]
  | hstr s =>
    intro fuel d rest pre hpre hsz
    have h1 : (1 : Nat) ≤ fuel := le_trans (by simp [jsize]) hsz
    obtain ⟨f, rfl⟩ : ∃ f, fuel = f + 1 := ⟨fuel - 1, by omega⟩
    have hs : skipWs (pre ++ (serJson d (Json.str s) ++ rest))
        = '"' :: ((s.toList.map escapeChar).flatten ++ '"' :: rest) := by
      rw [show serJson d (Json.str s) ++ rest
          = '"' :: ((s.toList.map escapeChar).flatten ++ '"' :: rest) by
        simp [serJson, quoteStr]]
      rw [skipWs_ws_append pre _ hpre, skipWsQuote]
    rw [pvStr f _ _ hs]
    simp only [parseStrChars_escaped]
    rfl
  | harr xs hxs =>
    intro fuel d rest pre hpre hsz
    have h1 : (1 : Nat) ≤ fuel :=
      le_trans (le_trans (by omega) (by simp [jsize] : 1 + jsizeItems xs ≤ jsize (.arr xs))) hsz
    obtain ⟨f, rfl⟩ : ∃ f, fuel = f + 1 := ⟨fuel - 1, by omega⟩
    cases xs with
    | nil =>
      have hs : skipWs (pre ++ (serJson d (Json.arr []) ++ rest)) = '[' :: ']' :: rest := by
        rw [show serJson d (Json.arr []) ++ rest = '[' :: ']' :: rest by simp [serJson]]
        rw [skipWs_ws_append pre _ hpre, skipWs_not '[' _ (by decide)]
      rw [pvArr f _ _ hs, skipWsRBrack]
      simp
    | cons x xs =>
      have hsz2 : jsizeItems (x :: xs) ≤ f := by
        have : jsize (Json.arr (x :: xs)) = 1 + jsizeItems (x :: xs) := by simp [jsize]
        omega
      obtain ⟨c, t, hser, hcw, hcq, hcb, hcj⟩ := serJson_head (d + 1) x
      have hs : skipWs (pre ++ (serJson d (Json.arr (x :: xs)) ++ rest)) =
          '[' :: ('\n' :: (indentChars (d + 1) ++ (serJson (d + 1) x ++
            (serArrTail (d + 1) xs ++ ('\n' :: (indentChars d ++ ']' :: rest)))))) := by
        rw [show serJson d (Json.arr (x :: xs)) ++ rest =
            '[' :: ('\n' :: (indentChars (d + 1) ++ (serJson (d + 1) x ++
              (serArrTail (d + 1) xs ++ ('\n' :: (indentChars d ++ ']' :: rest)))))) by
          simp [serJson]]
        rw [skipWs_ws_append pre _ hpre, skipWs_not '[' _ (by decide)]
      rw [pvArr f _ _ hs]
      have hskipR : skipWs ('\n' :: (indentChars (d + 1) ++ (serJson (d + 1) x ++
          (serArrTail (d + 1) xs ++ ('\n' :: (indentChars d ++ ']' :: rest)))))) =
          c :: (t ++ (serArrTail (d + 1) xs ++ ('\n' :: (indentChars d ++ ']' :: rest)))) := by
        rw [show ('\n' :: (indentChars (d + 1) ++ (serJson (d + 1) x ++
            (serArrTail (d + 1) xs ++ ('\n' :: (indentChars d ++ ']' :: rest)))))) =
            ('\n' :: indentChars (d + 1)) ++ (serJson (d + 1) x ++
              (serArrTail (d + 1) xs ++ ('\n' :: (indentChars d ++ ']' :: rest)))) by
          simp]
        rw [skipWs_ws_append ('\n' :: indentChars (d + 1)) _
          (by
            intro e he
            rcases List.mem_cons.mp he with h | h
            · subst h; rfl
            · exact indentChars_ws _ e h)]
        rw [hser]
        simp only [List.cons_append]
        rw [skipWs_not c _ hcw]
      rw [if_neg (by rw [hskipR]; simp; intro hcontra; exact absurd hcontra hcq)]
      have hitems := parseItems_ser xs x hxs f (d + 1) ('\n' :: indentChars (d + 1))
        ('\n' :: indentChars d) rest
        (by
          intro e he
          rcases List.mem_cons.mp he with h | h
          · subst h; rfl
          · exact indentChars_ws _ e h)
        (by
          intro e he
          rcases List.mem_cons.mp he with h | h
          · subst h; rfl
          · exact indentChars_ws _ e h)
        hsz2
      simp only [List.cons_append] at hitems
      simp only [hitems]
  | hobj ms hms =>
    intro fuel d rest pre hpre hsz
    have h1 : (1 : Nat) ≤ fuel :=
      le_trans (le_trans (by omega)
        (by simp [jsize] : 1 + jsizeMembers ms ≤ jsize (.obj ms))) hsz
    obtain ⟨f, rfl⟩ : ∃ f, fuel = f + 1 := ⟨fuel - 1, by omega⟩
    cases ms with
    | nil =>
      have hs : skipWs (pre ++ (serJson d (Json.obj []) ++ rest))
          = '\x7b' :: '\x7d' :: rest := by
        rw [show serJson d (Json.obj []) ++ rest = '\x7b' :: '\x7d' :: rest by
          simp [serJson]]
        rw [skipWs_ws_append pre _ hpre, skipWs_not '\x7b' _ (by decide)]
      rw [pvObj f _ _ hs, skipWsRBrace]
      simp
    | cons m ms =>
      obtain ⟨k, v⟩ := m
      have hsz2 : jsizeMembers ((k, v) :: ms) ≤ f := by
        have : jsize (Json.obj ((k, v) :: ms)) = 1 + jsizeMembers ((k, v) :: ms) := by
          simp [jsize]
        omega
      have hs : skipWs (pre ++ (serJson d (Json.obj ((k, v) :: ms)) ++ rest)) =
          '\x7b' :: ('\n' :: (indentChars (d + 1) ++ (quoteStr k ++ (':' :: ' ' ::
            (serJson (d + 1) v ++ (serObjTail (d + 1) ms ++
              ('\n' :: (indentChars d ++ '\x7d' :: rest)))))))) := by
        rw [show serJson d (Json.obj ((k, v) :: ms)) ++ rest =
            '\x7b' :: ('\n' :: (indentChars (d + 1) ++ (quoteStr k ++ (':' :: ' ' ::
              (serJson (d + 1) v ++ (serObjTail (d + 1) ms ++
                ('\n' :: (indentChars d ++ '\x7d' :: rest)))))))) by
          simp [serJson]]
        rw [skipWs_ws_append pre _ hpre, skipWs_not '\x7b' _ (by decide)]
      rw [pvObj f _ _ hs]
      have hskipR : skipWs ('\n' :: (indentChars (d + 1) ++ (quoteStr k ++ (':' :: ' ' ::
          (serJson (d + 1) v ++ (serObjTail (d + 1) ms ++
            ('\n' :: (indentChars d ++ '\x7d' :: rest)))))))) =
          '"' :: ((k.toList.map escapeChar).flatten ++ ('"' :: (':' :: ' ' ::
            (serJson (d + 1) v ++ (serObjTail (d + 1) ms ++
              ('\n' :: (indentChars d ++ '\x7d' :: rest))))))) := by
        rw [show ('\n' :: (indentChars (d + 1) ++ (quoteStr k ++ (':' :: ' ' ::
            (serJson (d + 1) v ++ (serObjTail (d + 1) ms ++
              ('\n' :: (indentChars d ++ '\x7d' :: rest)))))))) =
            ('\n' :: indentChars (d + 1)) ++ ('"' :: ((k.toList.map escapeChar).flatten ++
              ('"' :: (':' :: ' ' :: (serJson (d + 1) v ++ (serObjTail (d + 1) ms ++
                ('\n' :: (indentChars d ++ '\x7d' :: rest)))))))) by
          simp [quoteStr]]
        rw [skipWs_ws_append ('\n' :: indentChars (d + 1)) _
          (by
            intro e he
            rcases List.mem_cons.mp he with h | h
            · subst h; rfl
            · exact indentChars_ws _ e h)]
        rw [skipWsQuote]
      rw [if_neg (by rw [hskipR]; simp)]
      have hmems := parseMembers_ser ms k v hms f (d + 1) ('\n' :: indentChars (d + 1))
        ('\n' :: indentChars d) rest
        (by
          intro e he
          rcases List.mem_cons.mp he with h | h
          · subst h; rfl
          · exact indentChars_ws _ e h)
        (by
          intro e he
          rcases List.mem_cons.mp he with h | h
          · subst h; rfl
          · exact indentChars_ws _ e h)
        hsz2
      simp only [List.cons_append] at hmems
      simp only [hmems]

/-! ### Fuel sufficiency: the serialization is at least as long as `jsize` -/

theorem jsizeItems_le_len (ys : List Json)
    (h : ∀ y ∈ ys, ∀ d, jsize y ≤ (serJson d y).length) :
    ∀ d, jsizeItems ys ≤ (serArrTail d ys).length + 1 := by
  induction ys with
  | nil => intro d; simp [jsizeItems, serArrTail]
  | cons y ys ih =>
    intro d
    have h1 := h y (List.mem_cons_self y ys) d
    have h2 := ih (fun z hz => h z (List.mem_cons_of_mem _ hz)) d
    have e1 : jsizeItems (y :: ys) = 1 + jsize y + jsizeItems ys := by simp [jsizeItems]
    have e2 : (serArrTail d (y :: ys)).length =
        2 + (indentChars d).length + (serJson d y).length + (serArrTail d ys).length := by
      simp [serArrTail]; omega
    omega

theorem jsizeMembers_le_len (ms : List (String × Json))
    (h : ∀ kv ∈ ms, ∀ d, jsize kv.2 ≤ (serJson d kv.2).length) :
    ∀ d, jsizeMembers ms ≤ (serObjTail d ms).length + 1 := by
  induction ms with
  | nil => intro d; simp [jsizeMembers, serObjTail]
  | cons m ms ih =>
    obtain ⟨k, v⟩ := m
    intro d
    have h1 := h (k, v) (List.mem_cons_self _ ms) d
    have h2 := ih (fun z hz => h z (List.mem_cons_of_mem _ hz)) d
    have e1 : jsizeMembers ((k, v) :: ms) = 1 + jsize v + jsizeMembers ms := by
      simp [jsizeMembers]
    have e2 : (serObjTail d ((k, v) :: ms)).length =
        4 + (indentChars d).length + (quoteStr k).length + (serJson d v).length +
          (serObjTail d ms).length := by
      simp [serObjTail]; omega
    simp only [] at h1
    omega

theorem jsize_le_serLen (v : Json) : ∀ d, jsize v ≤ (serJson d v).length := by
  induction v using Json.myrec with
  | hnull => intro d; simp [serJson, jsize]
  | hbool b => intro d; cases b <;> simp [serJson, jsize]
  | hstr s => intro d; simp [serJson, jsize, quoteStr]
  | harr xs hxs =>
    intro d
    cases xs with
    | nil => simp [serJson, jsize, jsizeItems]
    | cons x xs =>
      have h1 := hxs x (List.mem_cons_self x xs) (d + 1)
      have h2 := jsizeItems_le_len xs (fun z hz => hxs z (List.mem_cons_of_mem _ hz)) (d + 1)
      have e1 : jsize (Json.arr (x :: xs)) = 2 + jsize x + jsizeItems xs := by
        simp [jsize, jsizeItems]; omega
      have e2 : (serJson d (Json.arr (x :: xs))).length =
          4 + (indentChars (d + 1)).length + (serJson (d + 1) x).length +
            (serArrTail (d + 1) xs).length + (indentChars d).length := by
        simp [serJson]; omega
      omega
  | hobj ms hms =>
    intro d
    cases ms with
    | nil => simp [serJson, jsize, jsizeMembers]
    | cons m ms =>
      obtain ⟨k, v⟩ := m
      have h1 := hms (k, v) (List.mem_cons_self _ ms) (d + 1)
      have h2 := jsizeMembers_le_len ms (fun z hz => hms z (List.mem_cons_of_mem _ hz)) (d + 1)
      have e1 : jsize (Json.obj ((k, v) :: ms)) = 2 + jsize v + jsizeMembers ms := by
        simp [jsize, jsizeMembers]; omega
      have e2 : (serJson d (Json.obj ((k, v) :: ms))).length =
          6 + (indentChars (d + 1)).length + (quoteStr k).length +
            (serJson (d + 1) v).length + (serObjTail (d + 1) ms).length +
            (indentChars d).length := by
        simp [serJson]; omega
      simp only [] at h1
      omega

/-- The bytes `saveMappings` writes parse back to the same array. -/
theorem parseJson_saveContent (data : List Json) :
    parseJson (saveContent data) = some (.arr data) := by
  unfold parseJson
  have htl : (saveContent data).toList = serJson 0 (.arr data) ++ ['\n'] := rfl
  rw [htl]
  have hlen : jsize (.arr data) ≤ (serJson 0 (.arr data) ++ ['\n']).length + 1 := by
    have := jsize_le_serLen (.arr data) 0
    simp only [List.length_append, List.length_cons, List.length_nil]
    omega
  have h := parse_ser (.arr data) ((serJson 0 (.arr data) ++ ['\n']).length + 1) 0
    ['\n'] [] (by intro c hc; cases hc) hlen
  simp only [List.nil_append] at h
  rw [h]
  rfl

/-! ## Claim theorems -/

theorem jsTrim_mk_cons_ne (a : Char) (t : List Char) (h : jsWhitespace a = false) :
    jsTrim (String.mk (a :: t)) ≠ "" := by
  intro hc
  have hdata : (((a :: t).dropWhile jsWhitespace).reverse.dropWhile
      jsWhitespace).reverse = ([] : List Char) := congrArg String.data hc
  rw [List.dropWhile_cons, if_neg (by simp [h])] at hdata
  have h2 : (a :: t).reverse.dropWhile jsWhitespace = [] := by
    simpa using congrArg List.reverse hdata
  have ha := List.dropWhile_eq_nil_iff.mp h2 a (by simp)
  rw [h] at ha
  exact Bool.noConfusion ha

/-- C5: for every record set held in memory (a list of JSON values, as
`main`'s `data` is), the bytes `saveMappings` writes (`JSON.stringify`
with indent 2 plus a trailing newline) load back through `loadMappings`
as exactly the same record set — every record's fields and values
unchanged.  Objects are ordered key/value lists, so equality here is
insensitive to nothing: the parse reproduces each record verbatim, which
in particular makes the round trip independent of JSON key ordering. -/
theorem claimC5_save_load_round_trip (file : String) (data : List Json) :
    loadMappings file (some (saveContent data)) = Except.ok data := by
  obtain ⟨c, t, hser, _, _, _, hjw⟩ := serJson_head 0 (Json.arr data)
  have hmk : saveContent data = String.mk (c :: (t ++ ['\n'])) := by
    unfold saveContent
    rw [hser]
    rfl
  have hne : jsTrim (saveContent data) ≠ "" := by
    rw [hmk]; exact jsTrim_mk_cons_ne c _ hjw
  simp only [loadMappings]
  rw [if_neg hne, parseJson_saveContent]

/-- C6: `loadMappings` returns the empty record set when the file is
absent, or present with blank (whitespace-only) content; with non-blank
content it returns the parsed elements when the content is a JSON array,
and fails with a `parseError` carrying the file name and the underlying
cause — the engine's syntax-error message for malformed JSON, the inner
`mappings.json 必须是数组` message for any non-array top-level value. -/
theorem claimC6_loadMappings_spec (file : String) :
    loadMappings file none = Except.ok [] ∧
    (∀ raw, jsTrim raw = "" → loadMappings file (some raw) = Except.ok []) ∧
    (∀ raw xs, jsTrim raw ≠ "" → parseJson raw = some (Json.arr xs) →
      loadMappings file (some raw) = Except.ok xs) ∧
    (∀ raw v, jsTrim raw ≠ "" → parseJson raw = some v → (∀ xs, v ≠ Json.arr xs) →
      loadMappings file (some raw)
        = Except.error (CliError.parseError file "mappings.json 必须是数组")) ∧
    (∀ raw, jsTrim raw ≠ "" → parseJson raw = none →
      loadMappings file (some raw)
        = Except.error (CliError.parseError file jsonSyntaxErrorMessage)) := by
  refine ⟨rfl, ?_, ?_, ?_, ?_⟩
  · intro raw h
    simp [loadMappings, h]
  · intro raw xs h hp
    simp [loadMappings, h, hp]
  · intro raw v h hp hv
    cases v with
    | arr xs => exact absurd rfl (hv xs)
    | null => simp [loadMappings, h, hp]
    | bool b => simp [loadMappings, h, hp]
    | str s => simp [loadMappings, h, hp]
    | obj ms => simp [loadMappings, h, hp]
  · intro raw h hp
    simp [loadMappings, h, hp]

/-- Witness for C6 at concrete inputs: a missing file, a blank file, an
empty array, a non-array top level, and malformed JSON. -/
theorem claimC6_witness :
    loadMappings "m.json" none = Except.ok [] ∧
    loadMappings "m.json" (some "  ") = Except.ok [] ∧
    loadMappings "m.json" (some "[]") = Except.ok [] ∧
    loadMappings "m.json" (some "null")
      = Except.error (CliError.parseError "m.json" "mappings.json 必须是数组") ∧
    loadMappings "m.json" (some "nope")
      = Except.error (CliError.parseError "m.json" jsonSyntaxErrorMessage) := by
  have h := claimC6_loadMappings_spec "m.json"
  exact ⟨h.1, h.2.1 "  " (by decide), h.2.2.1 "[]" [] (by decide) rfl,
    h.2.2.2.1 "null" Json.null (by decide) rfl (fun xs hx => Json.noConfusion hx),
    h.2.2.2.2 "nope" (by decide) rfl⟩

/-- C7: removing a code that no record carries leaves the store
untouched: the filter removes nothing — so re-serializing yields
byte-for-byte the bytes of the unchanged list — no write happens
(`saved = none`), the miss is reported as a message naming the code, and
`main` does not throw, so the process exit status stays 0. -/
theorem claimC7_remove_missing_code (code : String) (data : List Mapping)
    (hcode : code ≠ "") (habsent : ∀ r ∈ data, r.code ≠ code) :
    removeCmd code data = Except.ok
      { saved := none, stderrLines := ["未找到短码 " ++ code], stdoutLines := [] } ∧
    data.filter (fun item => !(item.code = code)) = data ∧
    exitCodeOf (removeCmd code data) = 0 := by
  have hfil : data.filter (fun item => !(item.code = code)) = data :=
    List.filter_eq_self.mpr (fun a ha => by simp [habsent a ha])
  have hrem : removeCmd code data = Except.ok
      ⟨none, ["未找到短码 " ++ code], []⟩ := by
    simp [removeCmd, hcode, hfil]
  exact ⟨hrem, hfil, by rw [hrem]; rfl⟩

theorem claimC7_witness :
    removeCmd "zzz" [buildMapping id "T" "aaa" { url := "u" }] = Except.ok
      { saved := none, stderrLines := ["未找到短码 zzz"], stdoutLines := [] } ∧
    [buildMapping id "T" "aaa" { url := "u" }].filter
      (fun item => !(item.code = "zzz")) = [buildMapping id "T" "aaa" { url := "u" }] ∧
    exitCodeOf (removeCmd "zzz" [buildMapping id "T" "aaa" { url := "u" }]) = 0 :=
  claimC7_remove_missing_code "zzz" _ (by decide)
    (by intro r hr; simp at hr; subst hr; decide)

/-- C10: removing a code that some record carries deletes every record
with that code (the filter keeps no matching record), keeps exactly the
records with other codes in their original relative order (the result is
a sublist of the original), persists the filtered list, and exits 0. -/
theorem claimC10_remove_present_code (code : String) (data : List Mapping)
    (hcode : code ≠ "") (hpresent : ∃ r ∈ data, r.code = code) :
    removeCmd code data = Except.ok
      { saved := some (data.filter (fun item => !(item.code = code))),
        stderrLines := [], stdoutLines := ["已删除 " ++ code] } ∧
    (∀ r ∈ data.filter (fun item => !(item.code = code)), r.code ≠ code) ∧
    (∀ r, r ∈ data.filter (fun item => !(item.code = code)) ↔ r ∈ data ∧ r.code ≠ code) ∧
    (data.filter (fun item => !(item.code = code))).Sublist data ∧
    exitCodeOf (removeCmd code data) = 0 := by
  have hlt : (data.filter (fun item => !(item.code = code))).length < data.length := by
    apply List.length_filter_lt_length_iff_exists.mpr
    obtain ⟨r, hr, he⟩ := hpresent
    exact ⟨r, hr, by simp [he]⟩
  have hne : ¬ ((data.filter (fun item => !(item.code = code))).length = data.length) := by
    omega
  have hrem : removeCmd code data = Except.ok
      ⟨some (data.filter (fun item => !(item.code = code))), [], ["已删除 " ++ code]⟩ := by
    simp [removeCmd, hcode, hne]
  refine ⟨hrem, ?_, ?_, List.filter_sublist data, by rw [hrem]; rfl⟩
  · intro r hr
    have := (List.mem_filter.mp hr).2
    simpa using this
  · intro r
    rw [List.mem_filter]
    simp

theorem claimC10_witness :
    removeCmd "aaa" [buildMapping id "T" "aaa" { url := "u" },
        buildMapping id "T" "bbb" { url := "v" },
        buildMapping id "T2" "aaa" { url := "w" }] = Except.ok
      { saved := some [buildMapping id "T" "bbb" { url := "v" }],
        stderrLines := [], stdoutLines := ["已删除 aaa"] } ∧
    exitCodeOf (removeCmd "aaa" [buildMapping id "T" "aaa" { url := "u" },
        buildMapping id "T" "bbb" { url := "v" },
        buildMapping id "T2" "aaa" { url := "w" }]) = 0 := by
  have h := claimC10_remove_present_code "aaa"
    [buildMapping id "T" "aaa" { url := "u" }, buildMapping id "T" "bbb" { url := "v" },
      buildMapping id "T2" "aaa" { url := "w" }]
    (by decide) ⟨buildMapping id "T" "aaa" { url := "u" }, by simp, rfl⟩
  refine ⟨?_, h.2.2.2.2⟩
  have h1 := h.1
  rw [show ([buildMapping id "T" "aaa" { url := "u" },
      buildMapping id "T" "bbb" { url := "v" },
      buildMapping id "T2" "aaa" { url := "w" }].filter
        (fun item => !(item.code = "aaa")))
      = [buildMapping id "T" "bbb" { url := "v" }] from by decide] at h1
  exact h1

/-! ### C9: locale parsing matches the spec-level description -/

theorem splitChar_ne_nil (sep : Char) (l : List Char) : splitChar sep l ≠ [] := by
  cases l with
  | nil => simp [splitChar]
  | cons c cs =>
    rw [splitChar]
    split
    · split <;> simp
    · split <;> simp

theorem joinChar_single (sep : Char) (a : List Char) : joinChar sep [a] = a := by
  simp [joinChar, List.intersperse]

theorem joinChar_cons2 (sep : Char) (a b : List Char) (t : List (List Char)) :
    joinChar sep (a :: b :: t) = a ++ sep :: joinChar sep (b :: t) := by
  simp [joinChar, List.intersperse]

theorem joinChar_splitChar (sep : Char) (l : List Char) :
    joinChar sep (splitChar sep l) = l := by
  induction l with
  | nil => rfl
  | cons c cs ih =>
    cases h : splitChar sep cs with
    | nil => exact absurd h (splitChar_ne_nil sep cs)
    | cons a t =>
      rw [h] at ih
      simp only [splitChar, h]
      by_cases hc : c = sep
      · subst hc
        rw [if_pos rfl, joinChar_cons2, ih]
        simp
      · rw [if_neg hc]
        cases t with
        | nil =>
          rw [joinChar_single]
          rw [joinChar_single] at ih
          rw [ih]
        | cons b u =>
          rw [joinChar_cons2]
          rw [joinChar_cons2] at ih
          rw [← ih]
          simp

theorem splitChar_first (sep : Char) (cs : List Char) :
    (splitFirst sep cs = none ∧ splitChar sep cs = [cs]) ∨
    (∃ a b, splitFirst sep cs = some (a, b) ∧
      splitChar sep cs = a :: splitChar sep b) := by
  induction cs with
  | nil => exact Or.inl ⟨rfl, rfl⟩
  | cons c cs ih =>
    by_cases hc : c = sep
    · refine Or.inr ⟨[], cs, by simp [splitFirst, hc], ?_⟩
      cases h : splitChar sep cs with
      | nil => exact absurd h (splitChar_ne_nil sep cs)
      | cons a t => simp only [splitChar, h, if_pos hc]
    · rcases ih with ⟨h1, h2⟩ | ⟨a, b, h1, h2⟩
      · refine Or.inl ⟨by simp [splitFirst, hc, h1], ?_⟩
        simp only [splitChar, h2, if_neg hc]
      · refine Or.inr ⟨c :: a, b, by simp [splitFirst, hc, h1], ?_⟩
        simp only [splitChar, h2, if_neg hc]

theorem parseLocales_step (map : List (String × String)) (pair : List Char) :
    (match splitChar '=' pair with
     | [] => map
     | lang :: urlParts =>
       if lang = [] ∨ urlParts = [] then map
       else assocSet map (jsTrim (String.mk lang))
              (jsTrim (String.mk (joinChar '=' urlParts))))
    = match localePairSpec pair with
      | none => map
      | some kv => assocSet map kv.1 kv.2 := by
  rcases splitChar_first '=' pair with ⟨h1, h2⟩ | ⟨a, b, h1, h2⟩
  · rw [h2]
    simp [localePairSpec, h1]
  · rw [h2]
    have hb := splitChar_ne_nil '=' b
    by_cases ha : a = []
    · subst ha
      simp [localePairSpec, h1, hb]
    · have hj : joinChar '=' (splitChar '=' b) = b := joinChar_splitChar '=' b
      simp [localePairSpec, h1, hb, ha, hj]

theorem parseLocales_foldl (l : List (List Char)) :
    ∀ acc, l.foldl
      (fun map pair =>
        match splitChar '=' pair with
        | [] => map
        | lang :: urlParts =>
          if lang = [] ∨ urlParts = [] then map
          else assocSet map (jsTrim (String.mk lang))
                 (jsTrim (String.mk (joinChar '=' urlParts)))) acc
      = (l.filterMap localePairSpec).foldl (fun m kv => assocSet m kv.1 kv.2) acc := by
  induction l with
  | nil => intro acc; rfl
  | cons p l ih =>
    intro acc
    rw [List.foldl_cons, List.filterMap_cons]
    have hstep := parseLocales_step acc p
    cases hlp : localePairSpec p with
    | none =>
      rw [hlp] at hstep
      simp only [] at hstep
      rw [hstep]
      exact ih acc
    | some kv =>
      rw [hlp] at hstep
      simp only [] at hstep
      rw [hstep]
      exact ih (assocSet acc kv.1 kv.2)

/-- C9: `parseLocales` computes exactly the spec-level map: the option is
split on commas into pairs; each pair is split at its first `=` (later
`=` characters stay in the URL); pairs with no `=` or an empty language
part are silently skipped; each kept pair maps the trimmed language tag
to the trimmed URL. -/
theorem claimC9_parseLocales_spec (input : String) :
    parseLocales input = parseLocalesSpec input := by
  by_cases h : input = ""
  · subst h; rfl
  · unfold parseLocales parseLocalesSpec
    rw [if_neg h]
    exact parseLocales_foldl (splitChar ',' input.toList) []

/-! ### C8 / C4: code generation -/

theorem genTry_all_fail (used : List String) (cand : Nat → String) :
    ∀ (n i : Nat), (∀ k, i ≤ k → k < i + n → used.contains (cand k) = true) →
      genTry used cand n i = .error .generationExhausted := by
  intro n
  induction n with
  | zero => intro i _; rfl
  | succ n ih =>
    intro i h
    rw [genTry, h i le_rfl (by omega)]
    exact ih (i + 1) (fun k hk1 hk2 => h k (by omega) (by omega))

theorem genTry_first_ok (used : List String) (cand : Nat → String) :
    ∀ (n i i0 : Nat), i ≤ i0 → i0 < i + n → used.contains (cand i0) = false →
      (∀ k, i ≤ k → k < i0 → used.contains (cand k) = true) →
      genTry used cand n i = .ok (cand i0) := by
  intro n
  induction n with
  | zero => intro i i0 h1 h2 _ _; omega
  | succ n ih =>
    intro i i0 h1 h2 h3 h4
    by_cases hi : i0 = i
    · subst hi
      rw [genTry, h3]
      rfl
    · have hlt : i < i0 := by omega
      rw [genTry, h4 i le_rfl hlt]
      exact ih (i + 1) i0 (by omega) (by omega) h3
        (fun k hk1 hk2 => h4 k (by omega) hk2)

theorem genTry_ok_spec (used : List String) (cand : Nat → String) :
    ∀ (n i : Nat) (c : String), genTry used cand n i = .ok c →
      used.contains c = false ∧ ∃ j, i ≤ j ∧ j < i + n ∧ c = cand j := by
  intro n
  induction n with
  | zero => intro i c h; exact absurd h (by rw [genTry]; intro hc; cases hc)
  | succ n ih =>
    intro i c h
    rw [genTry] at h
    by_cases hc : used.contains (cand i) = true
    · rw [if_pos hc] at h
      obtain ⟨h1, j, hj1, hj2, hj3⟩ := ih (i + 1) c h
      exact ⟨h1, j, by omega, by omega, hj3⟩
    · rw [if_neg hc] at h
      cases h
      exact ⟨Bool.not_eq_true _ ▸ Bool.of_not_eq_true hc, i, le_rfl, by omega, rfl⟩

/-- C8: `getRandomCode` tries at most 10000 candidates: when all 10000
collide with existing codes it throws the GenerationExhausted error
(whose message tells the caller to pass an explicit `--code`), and
otherwise it returns the first non-colliding candidate. -/
theorem claimC8_generation_bounded (rnd : Nat → Nat → Nat) (codes : List String) :
    ((∀ i, i < 10000 → codes.contains (randCode 5 true (rnd i)) = true) →
      getRandomCode rnd codes = .error .generationExhausted) ∧
    (∀ i0, i0 < 10000 → codes.contains (randCode 5 true (rnd i0)) = false →
      (∀ j, j < i0 → codes.contains (randCode 5 true (rnd j)) = true) →
      getRandomCode rnd codes = .ok (randCode 5 true (rnd i0))) := by
  constructor
  · intro h
    exact genTry_all_fail codes (fun i => randCode 5 true (rnd i)) 10000 0
      (fun k _ hk => h k (by omega))
  · intro i0 h1 h2 h3
    exact genTry_first_ok codes (fun i => randCode 5 true (rnd i)) 10000 0 i0
      (by omega) (by omega) h2 (fun k _ hk => h3 k hk)

theorem claimC8_witness :
    getRandomCode (fun _ _ => 0) ["22222"] = .error .generationExhausted ∧
    getRandomCode (fun _ _ => 0) [] = .ok "22222" := by
  constructor
  · exact (claimC8_generation_bounded (fun _ _ => 0) ["22222"]).1
      (fun i _ => by decide)
  · have h := (claimC8_generation_bounded (fun _ _ => 0) []).2 0 (by omega)
      (by decide) (fun j hj => absurd hj (Nat.not_lt_zero j))
    exact h

theorem randCode_length (len : Nat) (safe : Bool) (r : Nat → Nat) :
    (randCode len safe r).length = len := by
  show ((List.range len).map _).length = len
  simp

theorem randCode_safe_chars (len : Nat) (r : Nat → Nat) :
    ∀ ch ∈ (randCode len true r).toList, codeCharOk ch = true := by
  intro ch hch
  have hch2 : ch ∈ (List.range len).map
      (fun i => base62Safe.toList.getD (r i % base62Safe.length) ' ') := hch
  obtain ⟨i, _, heq⟩ := List.mem_map.mp hch2
  have hb : r i % base62Safe.length < base62Safe.toList.length := by
    have h56 : base62Safe.length = 56 := by decide
    have h56b : base62Safe.toList.length = 56 := by decide
    rw [h56, h56b]
    exact Nat.mod_lt _ (by omega)
  rw [List.getD_eq_getElem _ _ hb] at heq
  have hmem := List.getElem_mem hb
  rw [heq] at hmem
  exact (by decide : ∀ c ∈ base62Safe.toList, codeCharOk c = true) ch hmem

theorem getRandomCode_ok_spec (rnd : Nat → Nat → Nat) (codes : List String)
    (c : String) (h : getRandomCode rnd codes = .ok c) :
    codes.contains c = false ∧ ∃ j, j < 10000 ∧ c = randCode 5 true (rnd j) := by
  obtain ⟨h1, j, _, hj2, hj3⟩ :=
    genTry_ok_spec codes (fun i => randCode 5 true (rnd i)) 10000 0 c h
  exact ⟨h1, j, by omega, hj3⟩

/-- C4: a successful `add` with a valid URL and no explicit code appends
one record whose generated code (a) has length 5 — the maximum of
`CODE_MIN_LEN = 5` and the floor 4, (b) uses only characters of the code
class `[0-9A-Za-z_-]` (indeed only the unambiguous alphabet), and (c)
differs from the code of every prior record. -/
theorem claimC4_generated_code (isValidUrl : String → Bool) (sha : String → String)
    (now : String) (rnd : Nat → Nat → Nat) (o : AddOpts) (data newData : List Mapping)
    (hurl : o.url ≠ "") (hvalid : isValidUrl o.url = true) (hcode : o.code = "")
    (hok : addCmd isValidUrl sha now rnd o data = .ok newData) :
    ∃ c, getRandomCode rnd (data.map (fun item => item.code)) = .ok c ∧
      newData = data ++ [buildMapping sha now c o] ∧
      c.length = 5 ∧ (∀ ch ∈ c.toList, codeCharOk ch = true) ∧
      ∀ r ∈ data, r.code ≠ c := by
  rw [addCmd, if_neg hurl, hvalid] at hok
  simp only [Bool.not_true, Bool.false_eq_true, if_false] at hok
  have hres : resolveCode rnd o data
      = getRandomCode rnd (data.map (fun item => item.code)) := by
    rw [resolveCode, if_neg (by simp [hcode])]
  rw [hres] at hok
  cases hg : getRandomCode rnd (data.map fun item => item.code) with
  | error e => rw [hg] at hok; cases hok
  | ok c =>
    rw [hg] at hok
    simp only [] at hok
    have hnew : newData = placeMapping o.replace c (buildMapping sha now c o) data := by
      cases hok; rfl
    obtain ⟨hcontains, j, _, hcj⟩ := getRandomCode_ok_spec rnd _ c hg
    have hnm : ∀ r ∈ data, r.code ≠ c := by
      intro r hr heq
      have hmem : c ∈ data.map (fun item => item.code) :=
        List.mem_map.mpr ⟨r, hr, heq⟩
      rw [show (data.map (fun item => item.code)).contains c = true by simpa using hmem]
        at hcontains
      cases hcontains
    have happend : placeMapping o.replace c (buildMapping sha now c o) data
        = data ++ [buildMapping sha now c o] := by
      rw [placeMapping]
      by_cases hr : o.replace
      · rw [if_pos hr, List.findIdx?_eq_none_iff.mpr (fun x hx => by simp [hnm x hx])]
      · rw [if_neg hr]
    refine ⟨c, rfl, by rw [hnew, happend], ?_, ?_, hnm⟩
    · rw [hcj]; exact randCode_length 5 true (rnd j)
    · rw [hcj]; exact randCode_safe_chars 5 (rnd j)

theorem claimC4_witness : ∃ c,
    getRandomCode (fun _ _ => 0) (([] : List Mapping).map (fun item => item.code))
      = .ok c ∧
    [buildMapping id "T" "22222" { url := "https://c" }]
      = [] ++ [buildMapping id "T" c { url := "https://c" }] ∧
    c.length = 5 ∧ (∀ ch ∈ c.toList, codeCharOk ch = true) ∧
    ∀ r ∈ ([] : List Mapping), r.code ≠ c :=
  claimC4_generated_code (fun _ => true) id "T" (fun _ _ => 0)
    { url := "https://c" } [] [buildMapping id "T" "22222" { url := "https://c" }]
    (by decide) rfl rfl rfl

/-! ### C1 / C2 / C3: the add command -/

/-- C1: `add` with an explicit code that some record already carries and
without `--replace` throws the DuplicateCode error; `main` rethrows
before reaching `saveMappings`, so nothing is written and the stored
record set is unchanged.  (The invocation is otherwise well-formed: URL
present and valid, code matching the code class — earlier checks throw
different errors first.) -/
theorem claimC1_duplicate_code (isValidUrl : String → Bool) (sha : String → String)
    (now : String) (rnd : Nat → Nat → Nat) (o : AddOpts) (data : List Mapping)
    (hurl : o.url ≠ "") (hvalid : isValidUrl o.url = true)
    (hcode : o.code ≠ "") (hmatch : codeMatches o.code = true)
    (hrep : o.replace = false) (hdup : ∃ r ∈ data, r.code = o.code) :
    addCmd isValidUrl sha now rnd o data
      = .error (.duplicateCode o.code) := by
  rw [addCmd, if_neg hurl, hvalid]
  simp only [Bool.not_true, Bool.false_eq_true, if_false]
  have hens : ensureUnique o.code data = .error (.duplicateCode o.code) := by
    rw [ensureUnique, if_pos]
    obtain ⟨r, hr, he⟩ := hdup
    exact List.any_eq_true.mpr ⟨r, hr, by simp [he]⟩
  have hres : resolveCode rnd o data = .error (.duplicateCode o.code) := by
    rw [resolveCode, if_pos hcode, hmatch, hrep]
    simp only [Bool.not_true, Bool.false_eq_true, if_false, Bool.not_false, if_true]
    rw [hens]
  rw [hres]

theorem claimC1_witness :
    addCmd (fun _ => true) id "T" (fun _ _ => 0)
      { url := "https://e.com", code := "abc" }
      [buildMapping id "T0" "abc" { url := "https://a.com" }]
      = .error (.duplicateCode "abc") :=
  claimC1_duplicate_code (fun _ => true) id "T" (fun _ _ => 0) _ _
    (by decide) rfl (by decide) (by decide) rfl
    ⟨buildMapping id "T0" "abc" { url := "https://a.com" }, by simp, rfl⟩

/-- C2: `add --replace` with an explicit, well-formed code: when some
record carries the code, the new record overwrites the first such record
in place — the overwritten position held a record with that code, the
length is unchanged, position `i` now holds the new record, and every
other position is untouched; when no record carries the code, the new
record is appended at the end. -/
theorem claimC2_replace (isValidUrl : String → Bool) (sha : String → String)
    (now : String) (rnd : Nat → Nat → Nat) (o : AddOpts) (data : List Mapping)
    (hurl : o.url ≠ "") (hvalid : isValidUrl o.url = true)
    (hcode : o.code ≠ "") (hmatch : codeMatches o.code = true)
    (hrep : o.replace = true) :
    (∀ i, data.findIdx? (fun item => item.code = o.code) = some i →
      addCmd isValidUrl sha now rnd o data
        = .ok (data.set i (buildMapping sha now o.code o)) ∧
      i < data.length ∧
      data[i]?.map (fun r => r.code) = some o.code ∧
      (data.set i (buildMapping sha now o.code o)).length = data.length ∧
      (data.set i (buildMapping sha now o.code o))[i]?
        = some (buildMapping sha now o.code o) ∧
      ∀ j, j ≠ i → (data.set i (buildMapping sha now o.code o))[j]? = data[j]?) ∧
    (data.findIdx? (fun item => item.code = o.code) = none →
      addCmd isValidUrl sha now rnd o data
        = .ok (data ++ [buildMapping sha now o.code o])) := by
  have hres : resolveCode rnd o data = .ok o.code := by
    rw [resolveCode, if_pos hcode, hmatch, hrep]
    simp only [Bool.not_true, Bool.false_eq_true, if_false]
  have hadd : addCmd isValidUrl sha now rnd o data
      = .ok (placeMapping true o.code (buildMapping sha now o.code o) data) := by
    rw [addCmd, if_neg hurl, hvalid]
    simp only [Bool.not_true, Bool.false_eq_true, if_false]
    rw [hres, hrep]
  constructor
  · intro i hidx
    have hex : ∃ x ∈ data, (fun item => item.code = o.code : Mapping → Bool) x = true := by
      by_contra hnex
      push_neg at hnex
      rw [List.findIdx?_eq_none_iff.mpr
        (fun x hx => Bool.not_eq_true _ ▸ hnex x hx)] at hidx
      cases hidx
    have hfi := List.findIdx?_eq_some_of_exists hex
    rw [hidx] at hfi
    have hieq : i = data.findIdx (fun item => item.code = o.code) := by
      cases hfi; rfl
    have hlt : i < data.length := by
      rw [hieq]; exact List.findIdx_lt_length_of_exists hex
    have hgp : (fun item => item.code = o.code : Mapping → Bool)
        (data.get ⟨i, hlt⟩) = true := by
      subst hieq
      exact List.findIdx_getElem (w := hlt)
    have hb : (data.get ⟨i, hlt⟩).code = o.code := of_decide_eq_true hgp
    refine ⟨?_, hlt, ?_, List.length_set data i _, ?_, ?_⟩
    · rw [hadd, placeMapping, if_pos rfl, hidx]
    · have hsome : data[i]? = some (data.get ⟨i, hlt⟩) := List.getElem?_eq_getElem hlt
      rw [hsome]
      exact congrArg some hb
    · exact List.getElem?_set_eq_of_lt _ hlt
    · intro j hj
      exact List.getElem?_set_ne (Ne.symm hj)
  · intro hidx
    rw [hadd, placeMapping, if_pos rfl, hidx]

theorem claimC2_witness :
    (addCmd (fun _ => true) id "T" (fun _ _ => 0)
        { url := "https://n", code := "bbb", replace := true }
        [buildMapping id "T0" "aaa" { url := "u" },
          buildMapping id "T1" "bbb" { url := "v" },
          buildMapping id "T2" "ccc" { url := "w" }]
      = .ok [buildMapping id "T0" "aaa" { url := "u" },
          buildMapping id "T" "bbb" { url := "https://n", code := "bbb", replace := true },
          buildMapping id "T2" "ccc" { url := "w" }]) ∧
    (addCmd (fun _ => true) id "T" (fun _ _ => 0)
        { url := "https://n", code := "zzz", replace := true }
        [buildMapping id "T0" "aaa" { url := "u" }]
      = .ok [buildMapping id "T0" "aaa" { url := "u" },
          buildMapping id "T" "zzz" { url := "https://n", code := "zzz", replace := true }]) := by
  constructor
  · have h := (claimC2_replace (fun _ => true) id "T" (fun _ _ => 0)
      { url := "https://n", code := "bbb", replace := true }
      [buildMapping id "T0" "aaa" { url := "u" },
        buildMapping id "T1" "bbb" { url := "v" },
        buildMapping id "T2" "ccc" { url := "w" }]
      (by decide) rfl (by decide) (by decide) rfl).1 1 (by decide)
    exact h.1
  · exact (claimC2_replace (fun _ => true) id "T" (fun _ _ => 0)
      { url := "https://n", code := "zzz", replace := true }
      [buildMapping id "T0" "aaa" { url := "u" }]
      (by decide) rfl (by decide) (by decide) rfl).2 (by decide)

theorem nodup_append_singleton {α : Type} (l : List α) (a : α)
    (h : l.Nodup) (ha : a ∉ l) : (l ++ [a]).Nodup := by
  rw [List.nodup_append]
  refine ⟨h, List.nodup_singleton a, fun x hx hx2 => ?_⟩
  simp at hx2
  subst hx2
  exact ha hx

/-- A code returned by `resolveCode` when `--replace` is not set is fresh:
either `ensureUnique` accepted the explicit code, or the generator
checked the candidate against the existing codes. -/
theorem resolveCode_ok_fresh (rnd : Nat → Nat → Nat) (o : AddOpts)
    (data : List Mapping) (code : String)
    (hres : resolveCode rnd o data = .ok code) (hnr : o.replace = false) :
    ∀ r ∈ data, r.code ≠ code := by
  rw [resolveCode] at hres
  by_cases hc : o.code ≠ ""
  · rw [if_pos hc] at hres
    by_cases hm : codeMatches o.code = true
    · rw [hm] at hres
      simp only [Bool.not_true, Bool.false_eq_true, if_false] at hres
      rw [hnr] at hres
      simp only [Bool.not_false, if_true] at hres
      cases hens : ensureUnique o.code data with
      | error e => rw [hens] at hres; cases hres
      | ok u =>
        rw [hens] at hres
        simp only [] at hres
        cases hres
        rw [ensureUnique] at hens
        by_cases hany : data.any (fun item => item.code = o.code) = true
        · rw [if_pos hany] at hens; cases hens
        · intro r hr he
          exact hany (List.any_eq_true.mpr ⟨r, hr, by simp [he]⟩)
    · rw [Bool.not_eq_true] at hm
      rw [hm] at hres
      simp only [Bool.not_false, if_true] at hres
      cases hres
  · rw [if_neg hc] at hres
    obtain ⟨hcontains, _, _, _⟩ := getRandomCode_ok_spec rnd _ code hres
    intro r hr he
    have hmem : code ∈ data.map (fun item => item.code) := List.mem_map.mpr ⟨r, hr, he⟩
    rw [show (data.map (fun item => item.code)).contains code = true by simpa using hmem]
      at hcontains
    cases hcontains

/-- C3: when all codes in the record set are pairwise distinct, every
successful `add` — with or without `--replace`, with an explicit or a
generated code — leaves them pairwise distinct. -/
theorem claimC3_codes_nodup (isValidUrl : String → Bool) (sha : String → String)
    (now : String) (rnd : Nat → Nat → Nat) (o : AddOpts) (data newData : List Mapping)
    (hnd : (data.map (fun item => item.code)).Nodup)
    (hok : addCmd isValidUrl sha now rnd o data = .ok newData) :
    (newData.map (fun item => item.code)).Nodup := by
  rw [addCmd] at hok
  by_cases h1 : o.url = ""
  · rw [if_pos h1] at hok; cases hok
  rw [if_neg h1] at hok
  by_cases h2 : (!isValidUrl o.url) = true
  · rw [if_pos h2] at hok; cases hok
  rw [if_neg h2] at hok
  cases hres : resolveCode rnd o data with
  | error e => rw [hres] at hok; cases hok
  | ok code =>
    rw [hres] at hok
    simp only [] at hok
    have hnew : newData = placeMapping o.replace code (buildMapping sha now code o) data := by
      cases hok; rfl
    subst hnew
    have hbc : (buildMapping sha now code o).code = code := rfl
    by_cases hr : o.replace
    · rw [placeMapping, if_pos hr]
      cases hidx : data.findIdx? (fun item => item.code = code) with
      | none =>
        have hnone := List.findIdx?_eq_none_iff.mp hidx
        have hnm : code ∉ data.map (fun item => item.code) := by
          intro hmem
          obtain ⟨r, hr2, he⟩ := List.mem_map.mp hmem
          have hfalse := hnone r hr2
          rw [he] at hfalse
          simp at hfalse
        rw [List.map_append]
        exact nodup_append_singleton _ _ hnd (by simpa [hbc] using hnm)
      | some i =>
        have hex : ∃ x ∈ data, (fun item => item.code = code : Mapping → Bool) x = true := by
          by_contra hnex
          push_neg at hnex
          rw [List.findIdx?_eq_none_iff.mpr
            (fun x hx => Bool.not_eq_true _ ▸ hnex x hx)] at hidx
          cases hidx
        have hfi := List.findIdx?_eq_some_of_exists hex
        rw [hidx] at hfi
        have hieq : i = data.findIdx (fun item => item.code = code) := by
          cases hfi; rfl
        have hlt : i < data.length := by
          rw [hieq]; exact List.findIdx_lt_length_of_exists hex
        have hgp : (fun item => item.code = code : Mapping → Bool)
            (data.get ⟨i, hlt⟩) = true := by
          subst hieq
          exact List.findIdx_getElem (w := hlt)
        have hb : (data.get ⟨i, hlt⟩).code = code := of_decide_eq_true hgp
        rw [List.map_set]
        have hsame : (data.map (fun item => item.code)).set i
            ((buildMapping sha now code o).code) = data.map (fun item => item.code) := by
          apply List.ext_getElem?
          intro n
          by_cases hn : n = i
          · subst hn
            rw [List.getElem?_set_eq_of_lt _ (by rw [List.length_map]; exact hlt)]
            rw [List.getElem?_map]
            have hsome : data[n]? = some (data.get ⟨n, hlt⟩) :=
              List.getElem?_eq_getElem hlt
            rw [hsome]
            exact congrArg some (hbc.trans hb.symm)
          · exact List.getElem?_set_ne (Ne.symm hn)
        rw [hsame]
        exact hnd
    · rw [placeMapping, if_neg hr]
      have hnm := resolveCode_ok_fresh rnd o data code hres (Bool.not_eq_true _ ▸ hr)
      rw [List.map_append]
      refine nodup_append_singleton _ _ hnd ?_
      intro hmem
      obtain ⟨r, hr2, he⟩ := List.mem_map.mp hmem
      exact hnm r hr2 (he.trans hbc)

theorem claimC3_witness :
    (([buildMapping id "T0" "aaa" { url := "u" },
        buildMapping id "T1" "bbb" { url := "v" }] :
      List Mapping).map (fun item => item.code)).Nodup ∧
    ((([buildMapping id "T0" "aaa" { url := "u" },
        buildMapping id "T" "bbb" { url := "https://n", code := "bbb", replace := true }] :
      List Mapping)).map (fun item => item.code)).Nodup := by
  constructor
  · decide
  · exact claimC3_codes_nodup (fun _ => true) id "T" (fun _ _ => 0)
      { url := "https://n", code := "bbb", replace := true }
      [buildMapping id "T0" "aaa" { url := "u" },
        buildMapping id "T1" "bbb" { url := "v" }]
      _ (by decide) rfl

end Shortlink